import Mathlib

/-
Verification of the hwtop terminal hardware dashboard (src/main.rs) against its
natural-language specification.

The Rust source is shallowly embedded as executable Lean definitions:
  - Rust `String` / `&str` values are modelled as `List Char` (`Str`); Rust
    string ordering and prefix/contains tests are byte-lexicographic on ASCII,
    which coincides with the code-point order used here.
  - `u64`/`u32` quantities are modelled as `Nat`.  The `f64` arithmetic in
    `format_size`, `mem_usage` and `mem_bar` is modelled as exact rational
    arithmetic carried out over `Nat` (numerator/denominator form).  For the
    byte counts and ratios in question (below 2^53) the `f64` computations in
    the source are exact, so the models agree with the code there.
  - Rust panics (assert failure, out-of-bounds index) are modelled as `none`
    in `Option`-returning functions.
  - `BTreeMap<String, Vec<u32>>` is modelled as an association list kept
    strictly sorted by key (`AList`), matching BTreeMap iteration order.
  - `f32` component temperatures are modelled at integer precision
    (`Option Int`); `unwrap_or(0.0)` followed by a saturating `as u32` cast
    becomes `Int.toNat` of the default.  The u32 wraparound of the sort key
    `100000 - temp` for temperatures above 100000 degrees is not modelled
    (Nat subtraction saturates instead); no physical reading reaches it.
-/

namespace HwTop

/-- Strings are modelled as their character lists. -/
abbrev Str := List Char

/-! ## String helpers shared by the embedded functions -/

/-- Does `pat` occur as a contiguous substring of `s`?  Mirrors Rust
`str::contains` for literal patterns. -/
def containsSub (pat : Str) : Str → Bool
  | [] => pat.isPrefixOf []
  | c :: rest => pat.isPrefixOf (c :: rest) || containsSub pat rest

/-- Fuel-driven worker for `replaceAll`.  Each step either copies one
character or consumes one (nonempty) match, so fuel `s.length` suffices. -/
def replaceFuel (pat rep : Str) : Nat → Str → Str
  | _, [] => []
  | 0, s => s
  | fuel + 1, c :: rest =>
    if pat.isPrefixOf (c :: rest) then
      rep ++ replaceFuel pat rep fuel ((c :: rest).drop pat.length)
    else
      c :: replaceFuel pat rep fuel rest

/-- Replace every (leftmost, non-overlapping) occurrence of `pat` by `rep`,
mirroring Rust `str::replace` for nonempty literal patterns. -/
def replaceAll (pat rep s : Str) : Str :=
  replaceFuel pat rep s.length s

/-- Split a string at every ';', mirroring Rust `str::split(";")`: the result
is never empty, and empty fields are kept. -/
def splitSemi : Str → List Str
  | [] => [[]]
  | c :: rest =>
    let r := splitSemi rest
    if c = ';' then [] :: r
    else
      match r with
      | [] => [[c]]
      | p :: ps => (c :: p) :: ps

/-- Lexicographic strict order on strings by code point, matching the byte
order Rust's `Ord for String` uses on ASCII data. -/
def strLtB : Str → Str → Bool
  | _, [] => false
  | [], _ :: _ => true
  | a :: as, b :: bs =>
    if a.toNat < b.toNat then true
    else if b.toNat < a.toNat then false
    else strLtB as bs

/-! ## Unit Formatter -/

/-- Round `num / den` to the nearest integer with ties to even, the rounding
Rust's `{:.0}` float formatting performs on an exactly-represented value
(`den` is positive at every use site). -/
def rne (num den : Nat) : Nat :=
  let d := num / den
  let r := num % den
  if 2 * r < den then d
  else if 2 * r > den then d + 1
  else if d % 2 = 0 then d else d + 1

/-- Round `num / den` to the nearest integer with ties away from zero, the
rounding of Rust's `f64::round` (arguments are non-negative here). -/
def rhup (num den : Nat) : Nat :=
  (2 * num + den) / (2 * den)

/-- Render a value of tenths (`v` = ten times the displayed number) the way
Rust's `Display` prints `(x * 10.0).round() / 10.0`: the trailing `.0` is
dropped. -/
def showTenths (v : Nat) : String :=
  if v % 10 = 0 then toString (v / 10)
  else toString (v / 10) ++ "." ++ toString (v % 10)

/-- Embedded `format_size` (src/main.rs lines 87-119): binary-prefixed human
size string.  The `{:.0}`/`{:.1}` display roundings are ties-to-even; the one
explicit `f64::round` (the sub-100 GiB band) is ties-away-from-zero. -/
def format_size (bytes : Nat) : String :=
  if bytes < 2 ^ 10 then toString bytes ++ "B"
  else if bytes < 2 ^ 20 then toString (rne bytes (2 ^ 10)) ++ "K"
  else if bytes < 2 ^ 30 then toString (rne bytes (2 ^ 20)) ++ "M"
  else if bytes < 2 ^ 40 then
    if 100 * 2 ^ 30 ≤ bytes then toString (rne bytes (2 ^ 30)) ++ "G"
    else showTenths (rhup (10 * bytes) (2 ^ 30)) ++ "G"
  else
    if 100 * 2 ^ 40 ≤ bytes then toString (rne bytes (2 ^ 40)) ++ "T"
    else
      let v := rne (10 * bytes) (2 ^ 40)
      toString (v / 10) ++ "." ++ toString (v % 10) ++ "T"

/-- Modelled from the spec: the spec's `format_size` with every rounding
taken as round half away from zero, as §4.1 and the claim describe it.  Kept
separate from `format_size` (the code's behaviour) for comparison. -/
def format_size_halfaway (bytes : Nat) : String :=
  if bytes < 2 ^ 10 then toString bytes ++ "B"
  else if bytes < 2 ^ 20 then toString (rhup bytes (2 ^ 10)) ++ "K"
  else if bytes < 2 ^ 30 then toString (rhup bytes (2 ^ 20)) ++ "M"
  else if bytes < 2 ^ 40 then
    if 100 * 2 ^ 30 ≤ bytes then toString (rhup bytes (2 ^ 30)) ++ "G"
    else showTenths (rhup (10 * bytes) (2 ^ 30)) ++ "G"
  else
    if 100 * 2 ^ 40 ≤ bytes then toString (rhup bytes (2 ^ 40)) ++ "T"
    else
      let v := rhup (10 * bytes) (2 ^ 40)
      toString (v / 10) ++ "." ++ toString (v % 10) ++ "T"

/-- Embedded percent computation of the `mem_usage` closure (src/main.rs line
137): `((used as f64 / total as f64) * 100.0).round() as u32`.  For a zero
total the f64 quotient is NaN (`used == 0`, cast saturates to 0) or positive
infinity (`used > 0`, cast saturates to `u32::MAX`); no clamping happens. -/
def mem_usage_percent (used total : Nat) : Nat :=
  if total = 0 then
    if used = 0 then 0 else 2 ^ 32 - 1
  else rhup (100 * used) total

/-! ## Visual Encoder -/

/-- Embedded `percent_slider` (src/main.rs lines 48-59): partial-block glyph
for a percentage, selected by the fixed 8-bin breakpoints. -/
def percent_slider (p : Nat) : Char :=
  if p ≤ 12 then '▏'
  else if p ≤ 25 then '▎'
  else if p ≤ 37 then '▍'
  else if p ≤ 50 then '▌'
  else if p ≤ 62 then '▋'
  else if p ≤ 75 then '▊'
  else if p ≤ 87 then '▉'
  else '█'

/-- Number of fully-filled cells of the `mem_bar` closure (src/main.rs line
151): `(ratio * width as f64) as u32` with `ratio = (used/total).min(1.0)`.
A zero total yields NaN or infinity, which `min(1.0)` turns into `1.0`. -/
def mem_bar_full (used total width : Nat) : Nat :=
  if total = 0 ∨ total ≤ used then width
  else used * width / total

/-- Rounded percentage of the fractional remainder of `ratio * width`
(src/main.rs line 158); only evaluated when `used < total`. -/
def mem_bar_rem_percent (used total width : Nat) : Nat :=
  rhup (100 * (used * width % total)) total

/-- Embedded cell content of the `mem_bar` closure (src/main.rs lines
149-162): the characters between the brackets.  When not every cell is full,
the code always emits one `percent_slider` glyph for the fractional
remainder and then pads with spaces. -/
def mem_bar_cells (used total width : Nat) : List Char :=
  let full := mem_bar_full used total width
  if full = width then List.replicate width '█'
  else
    List.replicate full '█'
      ++ [percent_slider (mem_bar_rem_percent used total width)]
      ++ List.replicate (width - full - 1) ' '

/-! ## Table Layout Engine

Rust panics (failed `assert_eq!`, out-of-bounds slice index) are modelled as
`none`; `some s` means the function returns the string `s`. -/

/-- Width of column `i`: `cols.iter().map(|row| row[i].len()).max().unwrap_or(0)`
(src/main.rs line 30).  The out-of-bounds index `row[i]` on a too-short row
is a panic, hence `none`. -/
def colLen : List (List Str) → Nat → Option Nat
  | [], _ => some 0
  | row :: rest, i =>
    match row[i]?, colLen rest i with
    | some cell, some m => some (max cell.length m)
    | _, _ => none

/-- Collect the column widths for the given column indices. -/
def colLensAux (cols : List (List Str)) : List Nat → Option (List Nat)
  | [] => some []
  | i :: is =>
    match colLen cols i, colLensAux cols is with
    | some w, some ws => some (w :: ws)
    | _, _ => none

/-- Left-justify `item` to `w` characters, as Rust's `{item:<width$}`
(lengths are byte counts in Rust; the cells in question are ASCII). -/
def padCell (item : Str) (w : Nat) : Str :=
  item ++ List.replicate (w - item.length) ' '

/-- Render one row from cell index `i` on: every cell is printed as
`{item:<width$} ` — padded to its column width and followed by one space
(src/main.rs line 16).  A missing `sizes[i]` is an index panic. -/
def renderRow (sizes : List Nat) : List Str → Nat → Option Str
  | [], _ => some []
  | item :: rest, i =>
    match sizes[i]?, renderRow sizes rest (i + 1) with
    | some w, some s => some (padCell item w ++ [' '] ++ s)
    | _, _ => none

/-- Render every row, each followed by a newline (src/main.rs lines 14-19). -/
def renderRows (sizes : List Nat) : List (List Str) → Option Str
  | [] => some []
  | row :: rest =>
    match renderRow sizes row 0, renderRows sizes rest with
    | some s, some t => some (s ++ ['\n'] ++ t)
    | _, _ => none

/-- Embedded `sized_rows` (src/main.rs lines 7-21).  The `assert_eq!` on the
first row's cell count versus `sizes.len()` is modelled as `none` on
failure. -/
def sized_rows (rs : List Str) (sizes : List Nat) : Option Str :=
  match rs.map splitSemi with
  | [] => some []
  | c0 :: cols =>
    if c0.length = sizes.length then renderRows sizes (c0 :: cols) else none

/-- Embedded `rows` (src/main.rs lines 24-33): compute per-column maximum
widths from the first row's cell count, then delegate to `sized_rows`. -/
def rowsOut (rs : List Str) : Option Str :=
  match rs.map splitSemi with
  | [] => some []
  | c0 :: _ =>
    match colLensAux (rs.map splitSemi) (List.range c0.length) with
    | some sizes => sized_rows rs sizes
    | none => none

/-! ## Sensor Classifier -/

/-- One raw reading handed to `get_comp_temps`: a vendor label and an
optional temperature (modelled at integer precision). -/
structure Comp where
  label : Str
  temp : Option Int
deriving DecidableEq

/-- Shared model of `c.temperature().unwrap_or(0.0)` followed by a cast to
`u32` (truncation in the sort key, rounding in the stored value — identical
on integer temperatures; negatives saturate to 0). -/
def tempU32 (t : Option Int) : Nat :=
  (t.getD 0).toNat

/-- Sort key of the component pre-pass (src/main.rs lines 186-192):
components whose label contains "Composite" first, the rest by descending
temperature. -/
def sortKey (c : Comp) : Nat :=
  if containsSub (("Composite").data) c.label then 0
  else 100000 - tempU32 c.temp

/-- Stable insertion into a list sorted by `key`, placing the new element
before the first strictly larger or equal-key element it arrived before. -/
def sortedInsert (key : Comp → Nat) (a : Comp) : List Comp → List Comp
  | [] => [a]
  | b :: bs => if key a ≤ key b then a :: b :: bs else b :: sortedInsert key a bs

/-- Stable sort by a `Nat` key, modelling Rust's stable `sort_by_key`. -/
def sortByKey (key : Comp → Nat) : List Comp → List Comp
  | [] => []
  | a :: as => sortedInsert key a (sortByKey key as)

/-- First normalization step (src/main.rs line 194):
`label.replace("Core ", "").replace("coretemp ", "core ")`. -/
def normalize1 (label : Str) : Str :=
  replaceAll (("coretemp ").data) (("core ").data)
    (replaceAll (("Core ").data) [] label)

/-- Per-core test (src/main.rs line 195): the name strips to `core <digits>`
(Rust's `all` on an empty suffix is `true`, as is `List.all`). -/
def is_core (name : Str) : Bool :=
  (("core ").data).isPrefixOf name
    && (name.drop (("core ").data).length).all Char.isDigit

/-- Non-core cleanup chain (src/main.rs lines 207-217): nvme prefix
stripping, noise-token removal, device renames, Wi-Fi collapse. -/
def canonName (name : Str) : Str :=
  let name :=
    if (("nvme Sensor ").data).isPrefixOf name then
      (name.drop (("nvme Sensor ").data).length).dropWhile
        (fun c => c.isDigit || c.isWhitespace)
    else if (("nvme Composite ").data).isPrefixOf name then
      name.drop (("nvme Composite ").data).length
    else name
  let name :=
    replaceAll (("spd5118").data) (("RAM").data)
      (replaceAll (("acpitz").data) (("Motherboard").data)
        (replaceAll ((" temp1").data) []
          (replaceAll (("SSD ").data) [] name)))
  if containsSub (("wifi").data) name then ("Wi-Fi").data else name

/-- Association list sorted strictly by `strLtB` on the key, modelling
`BTreeMap<String, Vec<u32>>` in iteration order. -/
abbrev AList := List (Str × List Nat)

/-- `BTreeMap::insert`: replace the value at `k`, or insert `(k, v)` at its
sorted position. -/
def aInsert (k : Str) (v : List Nat) : AList → AList
  | [] => [(k, v)]
  | (k2, v2) :: rest =>
    if strLtB k k2 then (k, v) :: (k2, v2) :: rest
    else if k = k2 then (k, v) :: rest
    else (k2, v2) :: aInsert k v rest

/-- `BTreeMap::entry(k).and_modify(|v| v.push(t)).or_insert(vec![t])`. -/
def aPush (k : Str) (t : Nat) : AList → AList
  | [] => [(k, [t])]
  | (k2, v2) :: rest =>
    if strLtB k k2 then (k, [t]) :: (k2, v2) :: rest
    else if k = k2 then (k2, v2 ++ [t]) :: rest
    else (k2, v2) :: aPush k t rest

/-- `BTreeMap` lookup. -/
def aLookup (k : Str) : AList → Option (List Nat)
  | [] => none
  | (k2, v) :: rest => if k = k2 then some v else aLookup k rest

/-- Processing of one component inside the loop of `get_comp_temps`
(src/main.rs lines 193-222). -/
def procComp (m : AList) (c : Comp) : AList :=
  let name := normalize1 c.label
  let temp := tempU32 c.temp
  if containsSub (("core Package").data) name then
    aInsert (("CPU").data) [temp] m
  else if is_core name then
    aPush (("Core").data) temp m
  else
    aPush (canonName name) temp m

/-- Embedded `get_comp_temps` (src/main.rs lines 183-224): stable-sort the
components (Composite-labelled first, then descending temperature) and fold
them into the name-keyed map. -/
def get_comp_temps (comps : List Comp) : AList :=
  (sortByKey sortKey comps).foldl procComp []

/-- Peak per-core temperature shown on the TEMP row (src/main.rs lines 340
and 383): `comp_temps.remove("Core")` defaulted to `[]`, then
`iter().max().unwrap_or(0)`. -/
def maxCoreTemp (m : AList) : Nat :=
  ((aLookup (("Core").data) m).getD []).foldl max 0

/-- Stable insertion for the lexicographic string sort. -/
def sortStrInsert (a : Str) : List Str → List Str
  | [] => [a]
  | b :: bs => if strLtB b a then b :: sortStrInsert a bs else a :: b :: bs

/-- Ascending lexicographic sort, modelling `Vec::sort` on the collected
component names (duplicates cannot arise there). -/
def sortStr : List Str → List Str
  | [] => []
  | a :: as => sortStrInsert a (sortStr as)

/-- Embedded component-name listing of the `info` branch (src/main.rs lines
256-283): same normalization chain, package/core/Motherboard entries
skipped, and a candidate standing in a prefix relation with an already-seen
name is dropped entirely; the survivors are sorted. -/
def infoCompNames (labels : List Str) : List Str :=
  sortStr
    (labels.foldl
      (fun acc label =>
        let name := normalize1 label
        if containsSub (("core Package").data) name || is_core name then acc
        else
          let name := canonName name
          if name = ("Motherboard").data then acc
          else if acc.any (fun ex => ex.isPrefixOf name || name.isPrefixOf ex) then acc
          else acc ++ [name])
      [])

/-! ## Network interface selection -/

/-- One entry of `Networks`: interface name and its cumulative byte
counters. -/
structure Net where
  name : Str
  total_received : Nat
  total_transmitted : Nat
deriving DecidableEq

/-- Embedded `net_filter` (src/main.rs lines 178-181). -/
def net_filter (n : Net) : Bool :=
  !(containsSub (("veth").data) n.name
    || n.name = ("lo").data
    || (("br-").data).isPrefixOf n.name
    || (n.total_received = 0 && n.total_transmitted = 0))

/-- Sort key of the NETWORK line selection (src/main.rs line 426): the
cumulative transmitted-plus-received byte total. -/
def netKey (n : Net) : Nat :=
  n.total_transmitted + n.total_received

/-- Embedded interface selection of the NETWORK section (src/main.rs lines
425-430): `max_by_key` over `Reverse(netKey)` on the filtered interfaces.
Maximising the reversed key keeps the element whose total is smallest,
preferring later elements on ties (Rust's `max_by_key` returns the last
maximum). -/
def selectNet (nets : List Net) : Option Net :=
  (nets.filter net_filter).foldl
    (fun acc n =>
      match acc with
      | none => some n
      | some m => if netKey n ≤ netKey m then some n else some m)
    none

/-! ## C1: usage percentage of the memory formatter -/

/-- Claim C1 counterexample: the percent computed by `mem_usage` is neither
clamped to [0,100] (used 2, total 1 yields 200) nor 0 for a zero total (used
1, total 0 saturates to `u32::MAX` through the infinite f64 quotient). -/
theorem mem_usage_percent_cex :
    mem_usage_percent 2 1 = 200 ∧ mem_usage_percent 1 0 = 4294967295 := by
  exact ⟨by decide, by decide⟩

/-- Claim C1, amended: for a positive total the percentage is the
half-away-from-zero rounding of `used/total*100` with no clamping applied,
so it lies in [0,100] whenever `used ≤ total`; for a zero total the result
is 0 only when `used = 0` (and `u32::MAX` otherwise). -/
theorem mem_usage_percent_amended :
    (∀ used total : Nat, 0 < total → used ≤ total →
      mem_usage_percent used total ≤ 100) ∧
    mem_usage_percent 0 0 = 0 := by
  constructor
  · intro u t ht hu
    have ht' : t ≠ 0 := Nat.pos_iff_ne_zero.mp ht
    simp only [mem_usage_percent, rhup, if_neg ht']
    have h1 : 2 * (100 * u) + t ≤ 2 * t * 100 + t := by omega
    have h2 : (2 * (100 * u) + t) / (2 * t) ≤ (2 * t * 100 + t) / (2 * t) :=
      Nat.div_le_div_right h1
    have h3 : (2 * t * 100 + t) / (2 * t) = 100 + t / (2 * t) :=
      Nat.mul_add_div (by omega) 100 t
    have h4 : t / (2 * t) = 0 := Nat.div_eq_of_lt (by omega)
    omega
  · decide

/-- Claim C1 witness: the amended bound applied at used 50, total 100. -/
theorem mem_usage_percent_amended_witness :
    0 < 100 ∧ 50 ≤ 100 ∧ mem_usage_percent 50 100 ≤ 100 :=
  ⟨by decide, by decide, mem_usage_percent_amended.1 50 100 (by decide) (by decide)⟩

/-! ## C3: capacity bar cells -/

/-- Claim C3 counterexample: for width 10, used 5, total 10 the bar is not
"5 full cells then spaces" — the code always emits one `percent_slider`
glyph when the bar is not completely full, and at a zero fractional
remainder that glyph is the one-eighth block, not a space. -/
theorem mem_bar_cells_cex :
    mem_bar_cells 5 10 10 ≠ List.replicate 5 '█' ++ List.replicate 5 ' ' ∧
    mem_bar_cells 5 10 10 = List.replicate 5 '█' ++ ['▏'] ++ List.replicate 4 ' ' := by
  exact ⟨by decide, by decide⟩

/-- Claim C3, amended: the bar is always exactly `width` cells wide, with
`floor(min(used/total,1) * width)` full cells; when not all cells are full
the code emits exactly one partial cell chosen from the rounded fractional
remainder of `ratio * width` — including the minimal one-eighth glyph when
the remainder is zero — followed by spaces; so for width 10, used 5, total
10 the cells are 5 full blocks, one `▏` glyph, and 4 spaces. -/
theorem mem_bar_cells_amended :
    (∀ used total width : Nat, (mem_bar_cells used total width).length = width) ∧
    mem_bar_cells 5 10 10 = List.replicate 5 '█' ++ ['▏'] ++ List.replicate 4 ' ' := by
  constructor
  · intro u t w
    unfold mem_bar_cells
    by_cases hfull : mem_bar_full u t w = w
    · simp [hfull]
    · have hle : mem_bar_full u t w ≤ w := by
        unfold mem_bar_full
        by_cases h : t = 0 ∨ t ≤ u
        · simp [h]
        · simp only [if_neg h]
          push_neg at h
          have hmul : u * w ≤ t * w := Nat.mul_le_mul_right w (le_of_lt h.2)
          calc u * w / t ≤ t * w / t := Nat.div_le_div_right hmul
            _ = w := Nat.mul_div_cancel_left w (Nat.pos_iff_ne_zero.mpr h.1)
      simp only [if_neg hfull, List.length_append, List.length_replicate,
        List.length_cons, List.length_nil]
      omega
  · decide

/-! ## C7: human-readable size formatting -/

/-- Claim C7 counterexample: not every rounding in `format_size` is round
half away from zero — the `{:.0}` display rounding is ties-to-even, so 2560
bytes (exactly 2.5 KiB) prints as "2K" where the spec's half-away rule
demands "3K". -/
theorem format_size_cex :
    format_size 2560 = "2K" ∧ format_size_halfaway 2560 = "3K" ∧
    format_size 2560 ≠ format_size_halfaway 2560 := by
  exact ⟨by decide, by decide, by decide⟩

/-- Claim C7, amended: the bands are as described, but the `{:.0}`/`{:.1}`
display roundings round half to even (2.5 KiB prints "2K", 2.5 MiB prints
"2M") while only the explicit sub-100-GiB one-decimal rounding rounds half
away from zero; the boundary examples hold as stated. -/
theorem format_size_amended :
    format_size 1023 = "1023B" ∧
    format_size 1024 = "1K" ∧
    format_size 1536 = "2K" ∧
    format_size (1 <<< 20) = "1M" ∧
    format_size (1 <<< 30) = "1G" ∧
    format_size 2560 = "2K" ∧
    format_size 2621440 = "2M" ∧
    format_size (3 * 2 ^ 29) = "1.5G" ∧
    format_size (150 * 2 ^ 30) = "150G" ∧
    format_size (2 ^ 41) = "2.0T" ∧
    format_size (150 * 2 ^ 40) = "150T" := by
  refine ⟨by decide, by decide, by decide, by decide, by decide, by decide,
    by decide, by decide, by decide, by decide, by decide⟩

/-! ## C9: dominant network interface selection -/

/-- Claim C9: the NETWORK line does not select the interface with the
greatest cumulative received-plus-transmitted total.  `max_by_key` over
`Reverse(total)` maximises the reversed key, i.e. picks the interface with
the smallest cumulative total: with eth0 at 1000 cumulative bytes and wlan0
at 10, wlan0 is selected. -/
theorem selectNet_picks_min_total :
    selectNet [⟨("eth0").data, 900, 100⟩, ⟨("wlan0").data, 5, 5⟩]
      = some ⟨("wlan0").data, 5, 5⟩ ∧
    netKey ⟨("wlan0").data, 5, 5⟩ < netKey ⟨("eth0").data, 900, 100⟩ := by
  exact ⟨by decide, by decide⟩

/-! ## C2: end-to-end classification scenario -/

/-- Claim C2 counterexample: the raw labels "Core 0", "Core 1",
"Package id 0" do not classify into Core/CPU buckets at all — the first
normalization step deletes the substring "Core ", leaving names "0", "1"
and "Package id 0", so no "Core" or "CPU" group exists and the per-core
peak defaults to 0. -/
theorem classify_bare_core_labels_cex :
    get_comp_temps
        [⟨("Core 0").data, some 40⟩, ⟨("Core 1").data, some 60⟩,
          ⟨("Package id 0").data, some 55⟩]
      = [(("0").data, [40]), (("1").data, [60]), (("Package id 0").data, [55])] ∧
    aLookup (("Core").data)
        (get_comp_temps
          [⟨("Core 0").data, some 40⟩, ⟨("Core 1").data, some 60⟩,
            ⟨("Package id 0").data, some 55⟩]) = none ∧
    aLookup (("CPU").data)
        (get_comp_temps
          [⟨("Core 0").data, some 40⟩, ⟨("Core 1").data, some 60⟩,
            ⟨("Package id 0").data, some 55⟩]) = none ∧
    maxCoreTemp
        (get_comp_temps
          [⟨("Core 0").data, some 40⟩, ⟨("Core 1").data, some 60⟩,
            ⟨("Package id 0").data, some 55⟩]) = 0 := by
  exact ⟨by decide, by decide, by decide, by decide⟩

/-- Claim C2, amended: the sysinfo-style labels "coretemp Core 0" (40°),
"coretemp Core 1" (60°), "coretemp Package id 0" (55°) classify into
CPU → [55] and Core → [60, 40] — the Core values in descending-temperature
processing order rather than label order — and the per-core peak shown on
the TEMP row is the Core-group maximum, 60. -/
theorem classify_coretemp_scenario :
    get_comp_temps
        [⟨("coretemp Core 0").data, some 40⟩, ⟨("coretemp Core 1").data, some 60⟩,
          ⟨("coretemp Package id 0").data, some 55⟩]
      = [(("CPU").data, [55]), (("Core").data, [60, 40])] ∧
    maxCoreTemp
        (get_comp_temps
          [⟨("coretemp Core 0").data, some 40⟩, ⟨("coretemp Core 1").data, some 60⟩,
            ⟨("coretemp Package id 0").data, some 55⟩]) = 60 := by
  exact ⟨by decide, by decide⟩

/-! ## C4: table layout output -/

/-- Claim C4 counterexample: the exact output for rows "a;bb" and "ccc;d"
is not "a   bb\nccc d\n" — every cell, the last of a row included, is
printed as `{item:<width$} ` with a trailing space, so each line ends in a
space. -/
theorem rows_output_cex :
    rowsOut [("a;bb").data, ("ccc;d").data] ≠ some (("a   bb\nccc d\n").data) ∧
    rowsOut [("a;bb").data, ("ccc;d").data] = some (("a   bb \nccc d  \n").data) := by
  exact ⟨by decide, by decide⟩

/-- Claim C4, amended: each cell is rendered left-justified to its column's
maximum width and followed by one space (so cells are separated by a single
space and every line carries one trailing space), with one newline per row
and the empty string for empty input; rows "a;bb" and "ccc;d" yield column
widths 3 and 2 and the exact output "a   bb \nccc d  \n". -/
theorem rows_output_amended :
    rowsOut [] = some [] ∧
    colLensAux ([("a;bb").data, ("ccc;d").data].map splitSemi) (List.range 2)
      = some [3, 2] ∧
    rowsOut [("a;bb").data, ("ccc;d").data] = some (("a   bb \nccc d  \n").data) := by
  exact ⟨rfl, by decide, by decide⟩

/-! ## C5: prefix-merge semantics -/

/-- Claim C5 counterexample: in the temperature-classification pass, labels
normalizing to "Composite" and "Composite Variant" do not land in the same
group — `get_comp_temps` groups by exact BTreeMap key, so two separate
groups result and no value is appended to the existing one. -/
theorem classify_no_merge_cex :
    get_comp_temps
        [⟨("Composite").data, some 40⟩, ⟨("Composite Variant").data, some 50⟩]
      = [(("Composite").data, [40]), (("Composite Variant").data, [50])] := by
  decide

/-- Claim C5, amended: grouping in the classification pass is by exact
canonical name; the prefix-relation check lives only in the static-info
device listing, where a candidate name standing in a prefix relation with an
already-listed name is skipped entirely (no value is appended, the listing
keeps names only), and names with no prefix relation such as "RAM" and
"Wi-Fi" are never merged in either place. -/
theorem classify_merge_amended :
    infoCompNames [("Composite").data, ("Composite Variant").data]
      = [("Composite").data] ∧
    infoCompNames [("spd5118").data, ("foo wifi").data]
      = [("RAM").data, ("Wi-Fi").data] ∧
    get_comp_temps [⟨("spd5118").data, some 40⟩, ⟨("foo wifi").data, some 50⟩]
      = [(("RAM").data, [40]), (("Wi-Fi").data, [50])] := by
  exact ⟨by decide, by decide, by decide⟩

/-! ## C6: ordering of the produced groups -/

/-- Claim C6 counterexample: the groups produced by a classification pass
are not ordered by descending temperature — with two plain sensors "b" at
90° and "a" at 10° the resulting map iterates in ascending name order,
coolest group first. -/
theorem groups_order_cex :
    (get_comp_temps [⟨("b").data, some 90⟩, ⟨("a").data, some 10⟩]).map Prod.fst
      ≠ [("b").data, ("a").data] ∧
    get_comp_temps [⟨("b").data, some 90⟩, ⟨("a").data, some 10⟩]
      = [(("a").data, [10]), (("b").data, [90])] := by
  exact ⟨by decide, by decide⟩

/-! ## C10: the CPU bucket -/

/-- Claim C10 counterexample: the CPU bucket can hold two values after one
pass — a reading whose canonical name is literally "CPU" (without containing
"core Package") appends to the bucket created by an earlier-processed
package reading. -/
theorem cpu_bucket_two_values_cex :
    aLookup (("CPU").data)
        (get_comp_temps
          [⟨("coretemp Package id 0").data, some 70⟩, ⟨("CPU").data, some 10⟩])
      = some [70, 10] := by
  decide

/-! ## C8: fail-fast on ragged table input -/

theorem colLen_none {cols : List (List Str)} {row : List Str} (hrow : row ∈ cols)
    {i : Nat} (hlen : row.length ≤ i) : colLen cols i = none := by
  induction cols with
  | nil => cases hrow
  | cons r rest ih =>
    rcases List.mem_cons.mp hrow with hEq | hMem
    · subst hEq
      have hg : row[i]? = none := List.getElem?_len_le hlen
      cases hc : colLen rest i <;> simp [colLen, hg, hc]
    · have hc := ih hMem
      cases hg : r[i]? <;> simp [colLen, hg, hc]

theorem colLensAux_none {cols : List (List Str)} {i : Nat}
    (hi : colLen cols i = none) :
    ∀ {is : List Nat}, i ∈ is → colLensAux cols is = none := by
  intro is hmem
  induction is with
  | nil => cases hmem
  | cons j js ih =>
    rcases List.mem_cons.mp hmem with hEq | hMem
    · subst hEq
      cases hc : colLensAux cols js <;> simp [colLensAux, hi, hc]
    · have hc := ih hMem
      cases hg : colLen cols j <;> simp [colLensAux, hg, hc]

theorem colLen_some {cols : List (List Str)} {i : Nat}
    (h : ∀ row ∈ cols, i < row.length) : ∃ w, colLen cols i = some w := by
  induction cols with
  | nil => exact ⟨0, rfl⟩
  | cons r rest ih =>
    obtain ⟨m, hm⟩ := ih (fun row hrow => h row (List.mem_cons_of_mem r hrow))
    cases hg : r[i]? with
    | none =>
      have := List.getElem?_eq_none_iff.mp hg
      exact absurd (h r (List.mem_cons_self r rest)) (by omega)
    | some cell => exact ⟨max cell.length m, by simp [colLen, hg, hm]⟩

theorem colLensAux_some {cols : List (List Str)} :
    ∀ {is : List Nat}, (∀ i ∈ is, ∃ w, colLen cols i = some w) →
      ∃ sizes, colLensAux cols is = some sizes ∧ sizes.length = is.length := by
  intro is h
  induction is with
  | nil => exact ⟨[], rfl, rfl⟩
  | cons j js ih =>
    obtain ⟨w, hw⟩ := h j (List.mem_cons_self j js)
    obtain ⟨sizes, hs, hlen⟩ := ih (fun i hi => h i (List.mem_cons_of_mem j hi))
    exact ⟨w :: sizes, by simp [colLensAux, hw, hs], by simp [hlen]⟩

theorem renderRow_none {sizes : List Nat} :
    ∀ (row : List Str) (i : Nat), row ≠ [] → sizes.length < i + row.length →
      renderRow sizes row i = none := by
  intro row
  induction row with
  | nil => intro i hne _; exact absurd rfl hne
  | cons item rest ih =>
    intro i _ h
    by_cases hi : sizes.length ≤ i
    · have hg : sizes[i]? = none := List.getElem?_len_le hi
      cases hr : renderRow sizes rest (i + 1) <;> simp [renderRow, hg, hr]
    · cases rest with
      | nil => simp at h; omega
      | cons r2 rest2 =>
        have hr := ih (i + 1) (by simp) (by simp at h ⊢; omega)
        have hunf : renderRow sizes (item :: r2 :: rest2) i =
            match sizes[i]?, renderRow sizes (r2 :: rest2) (i + 1) with
            | some w, some s => some (padCell item w ++ [' '] ++ s)
            | _, _ => none := rfl
        rw [hunf, hr]
        cases hg : sizes[i]? <;> rfl

theorem renderRows_none {sizes : List Nat} {cols : List (List Str)} {row : List Str}
    (hrow : row ∈ cols) (h : renderRow sizes row 0 = none) :
    renderRows sizes cols = none := by
  induction cols with
  | nil => cases hrow
  | cons r rest ih =>
    rcases List.mem_cons.mp hrow with hEq | hMem
    · subst hEq
      cases hr : renderRows sizes rest <;> simp [renderRows, h, hr]
    · have hr := ih hMem
      cases hg : renderRow sizes r 0 <;> simp [renderRows, hg, hr]

/-- Claim C8: whenever some row's cell count differs from the first row's,
the table layout aborts — a too-short row makes the column-width computation
index out of bounds, and a too-long row makes the renderer index past the
size vector — so no truncated or padded output is ever produced. -/
theorem table_ragged_fails (r0 : Str) (rest : List Str)
    (h : ∃ r ∈ rest, (splitSemi r).length ≠ (splitSemi r0).length) :
    rowsOut (r0 :: rest) = none := by
  obtain ⟨r, hr, hne⟩ := h
  have hstep : rowsOut (r0 :: rest) =
      match colLensAux (List.map splitSemi (r0 :: rest))
          (List.range (splitSemi r0).length) with
      | some sizes => sized_rows (r0 :: rest) sizes
      | none => none := rfl
  by_cases hshort :
      ∃ row ∈ List.map splitSemi (r0 :: rest), row.length < (splitSemi r0).length
  · obtain ⟨row, hrow, hlt⟩ := hshort
    have h1 : colLen (List.map splitSemi (r0 :: rest)) row.length = none :=
      colLen_none hrow (le_refl _)
    have h2 : colLensAux (List.map splitSemi (r0 :: rest))
        (List.range (splitSemi r0).length) = none :=
      colLensAux_none h1 (List.mem_range.mpr hlt)
    rw [hstep, h2]
  · push_neg at hshort
    have hall : ∀ i ∈ List.range (splitSemi r0).length,
        ∃ w, colLen (List.map splitSemi (r0 :: rest)) i = some w := by
      intro i hi
      exact colLen_some (fun row hrow =>
        lt_of_lt_of_le (List.mem_range.mp hi) (hshort row hrow))
    obtain ⟨sizes, hsz, hlen⟩ := colLensAux_some hall
    have hlen' : sizes.length = (splitSemi r0).length := by
      rw [hlen, List.length_range]
    have hsized : sized_rows (r0 :: rest) sizes =
        if (splitSemi r0).length = sizes.length then
          renderRows sizes (splitSemi r0 :: List.map splitSemi rest)
        else none := rfl
    have hrlong : (splitSemi r0).length < (splitSemi r).length := by
      have := hshort (splitSemi r) (List.mem_map_of_mem splitSemi (List.mem_cons_of_mem r0 hr))
      omega
    have hnone : renderRow sizes (splitSemi r) 0 = none :=
      renderRow_none (splitSemi r) 0 (List.length_pos.mp (by omega)) (by omega)
    have hrows : renderRows sizes (splitSemi r0 :: List.map splitSemi rest) = none :=
      renderRows_none
        (List.mem_cons_of_mem (splitSemi r0) (List.mem_map_of_mem splitSemi hr)) hnone
    rw [hstep, hsz]
    show sized_rows (r0 :: rest) sizes = none
    rw [hsized, if_pos hlen'.symm]
    exact hrows

/-- Claim C8 witness: the ragged pair "a;b" (two cells) and "c" (one cell)
makes the layout abort. -/
theorem table_ragged_fails_witness :
    (∃ r ∈ [("c").data], (splitSemi r).length ≠ (splitSemi (("a;b").data)).length) ∧
    rowsOut [("a;b").data, ("c").data] = none :=
  ⟨by decide, table_ragged_fails (("a;b").data) [("c").data] (by decide)⟩

theorem aLookup_aInsert_self (k : Str) (v : List Nat) (m : AList) :
    aLookup k (aInsert k v m) = some v := by
  induction m with
  | nil => simp [aInsert, aLookup]
  | cons p rest ih =>
    obtain ⟨k2, v2⟩ := p
    by_cases h1 : strLtB k k2 = true
    · simp [aInsert, h1, aLookup]
    · by_cases h2 : k = k2
      · subst h2; simp [aInsert, h1, aLookup]
      · simp [aInsert, h1, h2, aLookup, ih]

theorem aLookup_aInsert_ne {k k2 : Str} (h : k ≠ k2) (v : List Nat) (m : AList) :
    aLookup k (aInsert k2 v m) = aLookup k m := by
  induction m with
  | nil => simp [aInsert, aLookup, h]
  | cons p rest ih =>
    obtain ⟨k3, v3⟩ := p
    by_cases h1 : strLtB k2 k3 = true
    · simp [aInsert, h1, aLookup, h]
    · by_cases h2 : k2 = k3
      · subst h2; simp [aInsert, h1, aLookup, h]
      · by_cases h3 : k = k3
        · simp [aInsert, h1, h2, aLookup, h3]
        · simp [aInsert, h1, h2, aLookup, h3, ih]

theorem aLookup_aPush_ne {k k2 : Str} (h : k ≠ k2) (t : Nat) (m : AList) :
    aLookup k (aPush k2 t m) = aLookup k m := by
  induction m with
  | nil => simp [aPush, aLookup, h]
  | cons p rest ih =>
    obtain ⟨k3, v3⟩ := p
    by_cases h1 : strLtB k2 k3 = true
    · simp [aPush, h1, aLookup, h]
    · by_cases h2 : k2 = k3
      · subst h2; simp [aPush, h1, aLookup, h]
      · by_cases h3 : k = k3
        · simp [aPush, h1, h2, aLookup, h3]
        · simp [aPush, h1, h2, aLookup, h3, ih]

theorem mem_sortedInsert {key : Comp → Nat} {a c : Comp} :
    ∀ {l : List Comp}, c ∈ sortedInsert key a l → c = a ∨ c ∈ l := by
  intro l
  induction l with
  | nil => intro h; simp [sortedInsert] at h; exact Or.inl h
  | cons b bs ih =>
    intro h
    by_cases hk : key a ≤ key b
    · simp only [sortedInsert, if_pos hk] at h
      rcases List.mem_cons.mp h with h' | h'
      · exact Or.inl h'
      · exact Or.inr h'
    · simp only [sortedInsert, if_neg hk] at h
      rcases List.mem_cons.mp h with h' | h'
      · exact Or.inr (by simp [h'])
      · rcases ih h' with h'' | h''
        · exact Or.inl h''
        · exact Or.inr (by simp [h''])

theorem mem_sortByKey {key : Comp → Nat} {c : Comp} :
    ∀ {l : List Comp}, c ∈ sortByKey key l → c ∈ l := by
  intro l
  induction l with
  | nil => intro h; exact h
  | cons a as ih =>
    intro h
    rcases mem_sortedInsert h with h' | h'
    · simp [h']
    · simp [ih h']

theorem foldl_cpu_inv :
    ∀ (comps : List Comp) (m : AList),
      (∀ l, aLookup (("CPU").data) m = some l → l.length = 1) →
      (∀ c ∈ comps,
        containsSub (("core Package").data) (normalize1 c.label) = true ∨
        is_core (normalize1 c.label) = true ∨
        canonName (normalize1 c.label) ≠ ("CPU").data) →
      ∀ l, aLookup (("CPU").data) (comps.foldl procComp m) = some l → l.length = 1 := by
  intro comps
  induction comps with
  | nil => intro m hm _; exact hm
  | cons c cs ih =>
    intro m hm h
    simp only [List.foldl_cons]
    apply ih
    · intro l hl
      by_cases hpkg : containsSub (("core Package").data) (normalize1 c.label) = true
      · have hstep : procComp m c = aInsert (("CPU").data) [tempU32 c.temp] m := by
          simp only [procComp, hpkg, if_true]
        rw [hstep, aLookup_aInsert_self] at hl
        injection hl with hl'
        rw [← hl']
        rfl
      · by_cases hcore : is_core (normalize1 c.label) = true
        · have hstep : procComp m c = aPush (("Core").data) (tempU32 c.temp) m := by
            simp only [procComp]
            rw [if_neg hpkg, if_pos hcore]
          have hne : ("CPU").data ≠ ("Core").data := by decide
          rw [hstep, aLookup_aPush_ne hne] at hl
          exact hm l hl
        · rcases h c (List.mem_cons_self c cs) with h1 | h2 | h3
          · exact absurd h1 hpkg
          · exact absurd h2 hcore
          · have hstep : procComp m c =
                aPush (canonName (normalize1 c.label)) (tempU32 c.temp) m := by
              simp only [procComp]
              rw [if_neg hpkg, if_neg hcore]
            rw [hstep, aLookup_aPush_ne (Ne.symm h3)] at hl
            exact hm l hl
    · intro c' hc'
      exact h c' (List.mem_cons_of_mem c hc')

/-- Claim C10, amended: provided no reading outside the package branch
normalizes to the exact canonical name "CPU" (such a reading would append to
the bucket), the CPU bucket holds exactly one value after a classification
pass — every "core Package" reading overwrites it with a fresh singleton via
`BTreeMap::insert`, so multiple package readings never accumulate and only
the last-processed one's temperature survives, while every other bucket
appends in discovery order. -/
theorem cpu_bucket_singleton (comps : List Comp)
    (h : ∀ c ∈ comps,
      containsSub (("core Package").data) (normalize1 c.label) = true ∨
      is_core (normalize1 c.label) = true ∨
      canonName (normalize1 c.label) ≠ ("CPU").data) :
    ∀ l, aLookup (("CPU").data) (get_comp_temps comps) = some l → l.length = 1 := by
  unfold get_comp_temps
  apply foldl_cpu_inv
  · intro l hl
    simp [aLookup] at hl
  · intro c hc
    exact h c (mem_sortByKey hc)

/-- Claim C10 witness: two package readings (50° processed after 60°, being
the cooler one) and one unrelated sensor leave CPU holding exactly the
single value 50. -/
theorem cpu_bucket_singleton_witness :
    containsSub (("core Package").data)
      (normalize1 (("coretemp Package id 0").data)) = true ∧
    containsSub (("core Package").data)
      (normalize1 (("coretemp Package id 1").data)) = true ∧
    canonName (normalize1 (("acpitz").data)) ≠ ("CPU").data ∧
    ([50] : List Nat).length = 1 :=
  ⟨by decide, by decide, by decide,
    cpu_bucket_singleton
      [⟨("coretemp Package id 0").data, some 50⟩,
        ⟨("coretemp Package id 1").data, some 60⟩,
        ⟨("acpitz").data, some 30⟩]
      (by decide) [50] (by decide)⟩

theorem char_eq_of_toNat_eq {a b : Char} (h : a.toNat = b.toNat) : a = b := by
  rw [← Char.ofNat_toNat a, ← Char.ofNat_toNat b, h]

theorem strLtB_total : ∀ (a b : Str), a = b ∨ strLtB a b = true ∨ strLtB b a = true := by
  intro a
  induction a with
  | nil =>
    intro b
    cases b with
    | nil => exact Or.inl rfl
    | cons d bs => exact Or.inr (Or.inl rfl)
  | cons c as ih =>
    intro b
    cases b with
    | nil => exact Or.inr (Or.inr rfl)
    | cons d bs =>
      by_cases h1 : c.toNat < d.toNat
      · exact Or.inr (Or.inl (by simp [strLtB, h1]))
      · by_cases h2 : d.toNat < c.toNat
        · exact Or.inr (Or.inr (by simp [strLtB, h2]))
        · have hcd : c = d := char_eq_of_toNat_eq (by omega)
          subst hcd
          rcases ih bs with h | h | h
          · exact Or.inl (by rw [h])
          · exact Or.inr (Or.inl (by simp [strLtB, h]))
          · exact Or.inr (Or.inr (by simp [strLtB, h]))

theorem aInsert_head_key (k : Str) (v : List Nat) (m : AList) :
    ∀ p ∈ (aInsert k v m).head?, p.1 = k ∨ ∃ q ∈ m.head?, p.1 = q.1 := by
  cases m with
  | nil =>
    intro p hp
    simp [aInsert] at hp
    exact Or.inl (by rw [← hp])
  | cons q rest =>
    obtain ⟨k2, v2⟩ := q
    intro p hp
    by_cases h1 : strLtB k k2 = true
    · simp [aInsert, h1] at hp
      exact Or.inl (by rw [← hp])
    · by_cases h2 : k = k2
      · subst h2
        simp [aInsert, h1] at hp
        exact Or.inl (by rw [← hp])
      · simp [aInsert, h1, h2] at hp
        exact Or.inr ⟨(k2, v2), by simp, by rw [← hp]⟩

theorem aPush_head_key (k : Str) (t : Nat) (m : AList) :
    ∀ p ∈ (aPush k t m).head?, p.1 = k ∨ ∃ q ∈ m.head?, p.1 = q.1 := by
  cases m with
  | nil =>
    intro p hp
    simp [aPush] at hp
    exact Or.inl (by rw [← hp])
  | cons q rest =>
    obtain ⟨k2, v2⟩ := q
    intro p hp
    by_cases h1 : strLtB k k2 = true
    · simp [aPush, h1] at hp
      exact Or.inl (by rw [← hp])
    · by_cases h2 : k = k2
      · subst h2
        simp [aPush, h1] at hp
        exact Or.inl (by rw [← hp])
      · simp [aPush, h1, h2] at hp
        exact Or.inr ⟨(k2, v2), by simp, by rw [← hp]⟩

theorem chain_aInsert {k : Str} {v : List Nat} {m : AList}
    (hm : List.Chain' (fun p q : Str × List Nat => strLtB p.1 q.1 = true) m) :
    List.Chain' (fun p q : Str × List Nat => strLtB p.1 q.1 = true) (aInsert k v m) := by
  induction m with
  | nil => simp [aInsert]
  | cons q rest ih =>
    obtain ⟨k2, v2⟩ := q
    have hm' := hm
    rw [List.chain'_cons'] at hm'
    obtain ⟨hhead, htail⟩ := hm'
    by_cases h1 : strLtB k k2 = true
    · have hstep : aInsert k v ((k2, v2) :: rest) = (k, v) :: (k2, v2) :: rest := by
        simp [aInsert, h1]
      rw [hstep]
      exact List.chain'_cons.mpr ⟨h1, hm⟩
    · by_cases h2 : k = k2
      · subst h2
        have hstep : aInsert k v ((k, v2) :: rest) = (k, v) :: rest := by
          simp [aInsert, h1]
        rw [hstep]
        exact List.chain'_cons'.mpr ⟨fun y hy => hhead y hy, htail⟩
      · have hstep : aInsert k v ((k2, v2) :: rest) = (k2, v2) :: aInsert k v rest := by
          simp [aInsert, h1, h2]
        rw [hstep]
        refine List.chain'_cons'.mpr ⟨?_, ih htail⟩
        intro y hy
        rcases aInsert_head_key k v rest y hy with hk | ⟨q, hq, hq1⟩
        · rcases strLtB_total k k2 with he | hlt | hgt
          · exact absurd he h2
          · exact absurd hlt h1
          · rw [hk]; exact hgt
        · rw [hq1]; exact hhead q hq

theorem chain_aPush {k : Str} {t : Nat} {m : AList}
    (hm : List.Chain' (fun p q : Str × List Nat => strLtB p.1 q.1 = true) m) :
    List.Chain' (fun p q : Str × List Nat => strLtB p.1 q.1 = true) (aPush k t m) := by
  induction m with
  | nil => simp [aPush]
  | cons q rest ih =>
    obtain ⟨k2, v2⟩ := q
    have hm' := hm
    rw [List.chain'_cons'] at hm'
    obtain ⟨hhead, htail⟩ := hm'
    by_cases h1 : strLtB k k2 = true
    · have hstep : aPush k t ((k2, v2) :: rest) = (k, [t]) :: (k2, v2) :: rest := by
        simp [aPush, h1]
      rw [hstep]
      exact List.chain'_cons.mpr ⟨h1, hm⟩
    · by_cases h2 : k = k2
      · subst h2
        have hstep : aPush k t ((k, v2) :: rest) = (k, v2 ++ [t]) :: rest := by
          simp [aPush, h1]
        rw [hstep]
        exact List.chain'_cons'.mpr ⟨fun y hy => hhead y hy, htail⟩
      · have hstep : aPush k t ((k2, v2) :: rest) = (k2, v2) :: aPush k t rest := by
          simp [aPush, h1, h2]
        rw [hstep]
        refine List.chain'_cons'.mpr ⟨?_, ih htail⟩
        intro y hy
        rcases aPush_head_key k t rest y hy with hk | ⟨q, hq, hq1⟩
        · rcases strLtB_total k k2 with he | hlt | hgt
          · exact absurd he h2
          · exact absurd hlt h1
          · rw [hk]; exact hgt
        · rw [hq1]; exact hhead q hq

theorem chain_procComp {m : AList} {c : Comp}
    (hm : List.Chain' (fun p q : Str × List Nat => strLtB p.1 q.1 = true) m) :
    List.Chain' (fun p q : Str × List Nat => strLtB p.1 q.1 = true) (procComp m c) := by
  simp only [procComp]
  split_ifs
  · exact chain_aInsert hm
  · exact chain_aPush hm
  · exact chain_aPush hm

theorem chain_foldl :
    ∀ (comps : List Comp) (m : AList),
      List.Chain' (fun p q : Str × List Nat => strLtB p.1 q.1 = true) m →
      List.Chain' (fun p q : Str × List Nat => strLtB p.1 q.1 = true)
        (comps.foldl procComp m) := by
  intro comps
  induction comps with
  | nil => intro m hm; exact hm
  | cons c cs ih =>
    intro m hm
    simp only [List.foldl_cons]
    exact ih _ (chain_procComp hm)

theorem sortedInsert_head (key : Comp → Nat) (a : Comp) (l : List Comp) :
    ∀ y ∈ (sortedInsert key a l).head?, y = a ∨ ∃ q ∈ l.head?, y = q := by
  cases l with
  | nil =>
    intro y hy
    simp [sortedInsert] at hy
    exact Or.inl hy.symm
  | cons b bs =>
    intro y hy
    by_cases h : key a ≤ key b
    · simp [sortedInsert, h] at hy
      exact Or.inl hy.symm
    · simp [sortedInsert, h] at hy
      exact Or.inr ⟨b, by simp, hy.symm⟩

theorem chain_sortedInsert {key : Comp → Nat} {a : Comp} {l : List Comp}
    (hl : List.Chain' (fun x y : Comp => key x ≤ key y) l) :
    List.Chain' (fun x y : Comp => key x ≤ key y) (sortedInsert key a l) := by
  induction l with
  | nil => simp [sortedInsert]
  | cons b bs ih =>
    have hl' := hl
    rw [List.chain'_cons'] at hl'
    obtain ⟨hhead, htail⟩ := hl'
    by_cases h : key a ≤ key b
    · have hstep : sortedInsert key a (b :: bs) = a :: b :: bs := by
        simp [sortedInsert, h]
      rw [hstep]
      exact List.chain'_cons.mpr ⟨h, hl⟩
    · have hstep : sortedInsert key a (b :: bs) = b :: sortedInsert key a bs := by
        simp [sortedInsert, h]
      rw [hstep]
      refine List.chain'_cons'.mpr ⟨?_, ih htail⟩
      intro y hy
      rcases sortedInsert_head key a bs y hy with hk | ⟨q, hq, hq1⟩
      · rw [hk]; omega
      · rw [hq1]; exact hhead q hq

theorem chain_sortByKey (key : Comp → Nat) :
    ∀ l : List Comp, List.Chain' (fun x y : Comp => key x ≤ key y) (sortByKey key l) := by
  intro l
  induction l with
  | nil => simp [sortByKey]
  | cons a as ih => exact chain_sortedInsert ih

/-- Claim C6, amended: the composite-first, descending-temperature stable
sort orders only the processing of the readings (it is recomputed from the
fresh readings on every pass and decides within-group value order and which
package value survives), while the groups themselves are emitted in
ascending canonical-name order — `BTreeMap` iteration — not by temperature. -/
theorem groups_order_amended :
    (∀ comps : List Comp,
      List.Chain' (fun p q : Str × List Nat => strLtB p.1 q.1 = true)
        (get_comp_temps comps)) ∧
    (∀ comps : List Comp,
      List.Chain' (fun a b : Comp => sortKey a ≤ sortKey b)
        (sortByKey sortKey comps)) := by
  constructor
  · intro comps
    unfold get_comp_temps
    exact chain_foldl _ [] (by simp)
  · intro comps
    exact chain_sortByKey sortKey comps

end HwTop
